import Mathlib

/-!
Verification development for the Rust tokenizer runtime template
(`src/plugins/rust/templates/tokenizer.template.rs` of the `syntax` tool).

The tokenizer is shallowly embedded: the source text is a `List Char`
(the template's generated rule tables only use ASCII patterns, so byte
offsets and character offsets coincide; the one place where byte/char
structure differs — the one-byte slice `&str_slice[0..1]` used on the
error path — is modelled explicitly through `Char.utf8Size`).  The `i32`
fields of the Rust struct are modelled as `Int`.  Rust operations that
can panic (slicing outside bounds or off a character boundary, `unwrap`
on a map lookup, out-of-range indexing) are modelled as `Option`, with
`none` mapped to a `panicked` outcome.  The regular-expression table is
modelled as a table of match-at-start functions `List Char → Option
(List Char)`, mirroring the anchored patterns the generator emits; the
semantic-action handler table is a table of functions on the tokenizer
state returning the token-type name, mirroring
`fn(&mut Tokenizer) -> &'static str`.
-/

namespace SyntaxTokenizer

/-- Characters of the scanned source (`&str` contents in the template). -/
abbrev Chars := List Char

/-- Mirrors `struct Token` of the template. -/
structure Token where
  kind : Int
  value : Chars
  start_offset : Int
  end_offset : Int
  start_line : Int
  end_line : Int
  start_column : Int
  end_column : Int
deriving Repr, DecidableEq

/-- Mirrors the mutable fields of `struct Tokenizer`.  The static tables
(`REGEX_RULES`, `LEX_RULES_BY_START_CONDITIONS`, `TOKENS_MAP`, `EOF` and
the `handlers` array, which the generated code never mutates) live in a
separate `LexConfig` record, matching their `lazy_static`/generated
nature. -/
structure Tokenizer where
  string : Chars
  cursor : Int
  states : List String
  current_line : Int
  current_column : Int
  current_line_begin_offset : Int
  token_start_offset : Int
  token_end_offset : Int
  token_start_line : Int
  token_end_line : Int
  token_start_column : Int
  token_end_column : Int
  yytext : Chars
  yyleng : Nat
  yybuffer : List Chars
deriving Repr, DecidableEq

/-- The static rule table: `REGEX_RULES` (as anchored match-at-start
functions), `LEX_RULES_BY_START_CONDITIONS`, `TOKENS_MAP`, the `EOF`
token name, and the lex-rule handler array. -/
structure LexConfig where
  lex_rules : List (Chars → Option Chars)
  lex_rules_by_start_conditions : String → Option (List Nat)
  tokens_map : String → Option Int
  eof : String
  handlers : List (Tokenizer → Tokenizer × String)

namespace Tokenizer

/-- Mirrors `Tokenizer::new()` (the `handlers` field excluded, see
`LexConfig`). -/
def new : Tokenizer where
  string := []
  cursor := 0
  states := []
  current_line := 1
  current_column := 0
  current_line_begin_offset := 0
  token_start_offset := 0
  token_end_offset := 0
  token_start_line := 0
  token_end_line := 0
  token_start_column := 0
  token_end_column := 0
  yytext := []
  yyleng := 0
  yybuffer := []

/-- Mirrors `Tokenizer::init_string`. -/
def init_string (t : Tokenizer) (string : Chars) : Tokenizer :=
  { t with
    string := string
    states := [] ++ ["INITIAL"]
    cursor := 0
    current_line := 1
    current_column := 0
    current_line_begin_offset := 0
    token_start_offset := 0
    token_end_offset := 0
    token_start_line := 0
    token_end_line := 0
    token_start_column := 0
    token_end_column := 0 }

/-- Mirrors `Tokenizer::string_ref` (moves a generated string into
`yybuffer` and hands back a reference to it). -/
def string_ref (t : Tokenizer) (s : Chars) : Tokenizer × Chars :=
  ({ t with yybuffer := t.yybuffer ++ [s] }, s)

/-- Mirrors `Tokenizer::set_yytext`. -/
def set_yytext (t : Tokenizer) (s : Chars) : Tokenizer :=
  let r := t.string_ref s
  { r.1 with yytext := r.2 }

/-- Mirrors `Tokenizer::has_more_tokens`: `cursor <= string.len()`. -/
def has_more_tokens (t : Tokenizer) : Bool :=
  t.cursor ≤ (t.string.length : Int)

/-- Mirrors `Tokenizer::is_eof`: `cursor == string.len()`. -/
def is_eof (t : Tokenizer) : Bool :=
  t.cursor = (t.string.length : Int)

/-- Mirrors `Tokenizer::get_current_state`:
`states.last().unwrap_or(&"INITIAL")`. -/
def get_current_state (t : Tokenizer) : String :=
  t.states.getLast?.getD "INITIAL"

/-- Mirrors `Tokenizer::push_state` (the chained `&mut self` return is
the returned state). -/
def push_state (t : Tokenizer) (state : String) : Tokenizer :=
  { t with states := t.states ++ [state] }

/-- Mirrors `Tokenizer::begin`, the alias for `push_state`. -/
def begin (t : Tokenizer) (state : String) : Tokenizer :=
  t.push_state state

/-- Mirrors `Tokenizer::pop_state`:
`states.pop().unwrap_or(&"INITIAL")`. -/
def pop_state (t : Tokenizer) : Tokenizer × String :=
  match t.states.getLast? with
  | some s => ({ t with states := t.states.dropLast }, s)
  | none => (t, "INITIAL")

/-- The newline scan of `Tokenizer::capture_location`: iterates the
occurrences of `\n` in the matched text (`nl_re.captures_iter`), and for
each occurrence at position `idx` runs
`current_line += 1; current_line_begin_offset = token_start_offset + idx + 1`. -/
def nlScan : Tokenizer → Chars → Nat → Tokenizer
  | t, [], _ => t
  | t, c :: cs, idx =>
    nlScan
      (if c = '\n' then
        { t with
          current_line := t.current_line + 1
          current_line_begin_offset := t.token_start_offset + (idx : Int) + 1 }
      else t)
      cs (idx + 1)

/-- Mirrors `Tokenizer::capture_location`. -/
def capture_location (t0 : Tokenizer) (matched : Chars) : Tokenizer :=
  let t1 := { t0 with token_start_offset := t0.cursor }
  let t2 := { t1 with
    token_start_line := t1.current_line
    token_start_column := t1.token_start_offset - t1.current_line_begin_offset }
  let t3 := nlScan t2 matched 0
  let t4 := { t3 with token_end_offset := t3.cursor + (matched.length : Int) }
  let t5 := { t4 with
    token_end_line := t4.current_line
    token_end_column := t4.token_end_offset - t4.current_line_begin_offset }
  { t5 with current_column := t5.token_end_column }

/-- Mirrors `Tokenizer::_match`: on a regex hit, capture the location,
advance the cursor by the matched length, and return the matched text. -/
def _match (t : Tokenizer) (str_slice : Chars) (re : Chars → Option Chars) :
    Option (Chars × Tokenizer) :=
  match re str_slice with
  | some matched =>
    let t1 := t.capture_location matched
    some (matched, { t1 with cursor := t1.cursor + (matched.length : Int) })
  | none => none

/-- Mirrors `Tokenizer::to_token`.  `none` models the `expect` panic on
a token name absent from `TOKENS_MAP`. -/
def to_token (cfg : LexConfig) (t : Tokenizer) (token : String) : Option Token :=
  match cfg.tokens_map token with
  | some kind =>
    some
      { kind := kind
        value := t.yytext
        start_offset := t.token_start_offset
        end_offset := t.token_end_offset
        start_line := t.token_start_line
        end_line := t.token_end_line
        start_column := t.token_start_column
        end_column := t.token_end_column }
  | none => none

end Tokenizer

/-- Splits on `\n`, exactly like `string.split('\n').collect::<Vec<_>>()`:
`n` newlines yield `n + 1` pieces. -/
def splitNl : Chars → List Chars
  | [] => [[]]
  | c :: cs =>
    if c = '\n' then [] :: splitNl cs
    else
      match splitNl cs with
      | [] => [[c]]
      | p :: ps => (c :: p) :: ps

/-- The payload of the `panic!` in `Tokenizer::panic_unexpected_token`:
the four `format!` arguments `line_data`, `string`, `line`, `column`. -/
structure UnexpectedTokenError where
  line_data : Chars
  string : Chars
  line : Int
  column : Int
deriving Repr, DecidableEq

namespace Tokenizer

/-- Mirrors `Tokenizer::panic_unexpected_token`.  `none` models the
panics of the line indexing `[(line - 1) as usize]` (including the wrap
of a negative `i32` cast to `usize`) and of materialising a negative-cast
`take(column as usize)` padding. -/
def panic_unexpected_token (t : Tokenizer) (string : Chars) (line column : Int) :
    Option UnexpectedTokenError :=
  if line < 1 ∨ column < 0 then none
  else
    match (splitNl t.string)[(line - 1).toNat]? with
    | none => none
    | some line_source =>
      let pad : Chars := List.replicate column.toNat ' '
      some
        { line_data := [ '\n', '\n'] ++ line_source ++ [ '\n'] ++ pad ++ [ '^', '\n']
          string := string
          line := line
          column := column }

end Tokenizer

/-- Result of one full `get_next_token` activation. -/
inductive LexOutcome where
  | tok (t : Token) (st : Tokenizer)
  | err (e : UnexpectedTokenError)
  | panicked
  | out_of_fuel
deriving Repr, DecidableEq

/-- Result of one non-recursive pass of the `get_next_token` body:
either a final outcome, or the state from which the skip-recursion
(`return self.get_next_token()`) continues. -/
inductive StepResult where
  | done (o : LexOutcome)
  | skip (st : Tokenizer)
deriving Repr, DecidableEq

/-- Mirrors `&self.string[self.cursor as usize..]`: `none` models the
slice panic when the cursor (cast to `usize`) is outside the buffer. -/
def dropSlice (st : Tokenizer) : Option Chars :=
  if 0 ≤ st.cursor ∧ st.cursor ≤ (st.string.length : Int) then
    some (st.string.drop st.cursor.toNat)
  else none

/-- Mirrors `&str_slice[0..1]` on the UTF-8 buffer: defined exactly when
byte 1 is a character boundary, i.e. when the first character occupies a
single byte; `none` models the slice panic (empty slice or a multi-byte
first character). -/
def sliceOneByte : Chars → Option Chars
  | [] => none
  | c :: _ => if c.utf8Size = 1 then some [c] else none

/-- The code after the rule loop of `get_next_token`: the single-step
EOF advance, or the unexpected-token error. -/
def noMatchEnd (cfg : LexConfig) (st : Tokenizer) (str_slice : Chars) : StepResult :=
  if st.is_eof then
    let st1 := { st with cursor := st.cursor + 1, yytext := cfg.eof.data }
    .done
      (match st1.to_token cfg cfg.eof with
       | some t => .tok t st1
       | none => .panicked)
  else
    .done
      (match sliceOneByte str_slice with
       | none => .panicked
       | some s1 =>
         match st.panic_unexpected_token s1 st.current_line st.current_column with
         | some e => .err e
         | none => .panicked)

/-- The body of the rule loop after `_match` succeeded for rule `i` with
text `matched` (state `st1` is the post-`_match` state): the zero-length
cursor bump, the `yytext`/`yyleng` update, the handler call, and the
skip-vs-emit decision on the returned token-type name. -/
def applyMatch (cfg : LexConfig) (st1 : Tokenizer) (i : Nat) (matched : Chars) :
    StepResult :=
  let st2 := if matched.length = 0 then { st1 with cursor := st1.cursor + 1 } else st1
  let st3 := { st2 with yytext := matched, yyleng := matched.length }
  match cfg.handlers[i]? with
  | none => .done .panicked
  | some handler =>
    let r := handler st3
    if r.2.length = 0 then .skip r.1
    else
      .done
        (match r.1.to_token cfg r.2 with
         | some t => .tok t r.1
         | none => .panicked)

/-- The `for i in lex_rules_for_state` loop of `get_next_token`:
`REGEX_RULES[i]` lookup, `_match`, and on the first hit the rest of the
loop body; after the loop, `noMatchEnd`. -/
def tryRules (cfg : LexConfig) (st : Tokenizer) (str_slice : Chars) :
    List Nat → StepResult
  | [] => noMatchEnd cfg st str_slice
  | i :: rest =>
    match cfg.lex_rules[i]? with
    | none => .done .panicked
    | some re =>
      match st._match str_slice re with
      | none => tryRules cfg st str_slice rest
      | some (matched, st1) => applyMatch cfg st1 i matched

/-- One non-recursive pass of `Tokenizer::get_next_token`. -/
def lexStep (cfg : LexConfig) (st : Tokenizer) : StepResult :=
  if ¬ st.has_more_tokens then
    let st1 := { st with yytext := cfg.eof.data }
    .done
      (match st1.to_token cfg cfg.eof with
       | some t => .tok t st1
       | none => .panicked)
  else
    match dropSlice st with
    | none => .done .panicked
    | some str_slice =>
      match cfg.lex_rules_by_start_conditions st.get_current_state with
      | none => .done .panicked
      | some lex_rules_for_state => tryRules cfg st str_slice lex_rules_for_state

/-- Mirrors `Tokenizer::get_next_token`; the `fuel` bounds the depth of
the skip-recursion (`return self.get_next_token()`). -/
def get_next_token (cfg : LexConfig) : Nat → Tokenizer → LexOutcome
  | 0, _ => .out_of_fuel
  | fuel + 1, st =>
    match lexStep cfg st with
    | .done o => o
    | .skip st1 => get_next_token cfg fuel st1

/-! ### Specification-side helpers (absolute line accounting) -/

/-- Number of newline characters in `s`. -/
def countNl (s : Chars) : Nat := s.count '\n'

/-- Offset of the first character of the line containing position `p`:
the largest `q ≤ p` with `q = 0` or a newline at `q - 1`. -/
def lineBeginOffset (s : Chars) : Nat → Nat
  | 0 => 0
  | p + 1 => if s[p]? = some '\n' then p + 1 else lineBeginOffset s p

/-- The running line bookkeeping of a tokenizer state agrees with the
absolute position of its cursor: `current_line` is one plus the number
of newlines before the cursor, and `current_line_begin_offset` is the
offset of the first character of the cursor's line. -/
def Tokenizer.LineInv (st : Tokenizer) : Prop :=
  0 ≤ st.cursor ∧
  st.current_line = 1 + (countNl (st.string.take st.cursor.toNat) : Int) ∧
  st.current_line_begin_offset = (lineBeginOffset st.string st.cursor.toNat : Int)

instance (st : Tokenizer) : Decidable st.LineInv := by
  unfold Tokenizer.LineInv; infer_instance

/-- Handlers of the rule table leave the cursor and the source buffer
alone (they may freely change every other field: push or pop states,
override `yytext`, grow `yybuffer`).  The generated semantic actions
never touch `cursor` or `string`. -/
def HandlersOk (cfg : LexConfig) : Prop :=
  ∀ h ∈ cfg.handlers, ∀ st : Tokenizer,
    ((h st).1.cursor = st.cursor ∧ (h st).1.string = st.string)

/-- The rule patterns are anchored: a reported match is an initial
segment of the text it was run on (the contract of the generated
anchored regexes, spec section 6). -/
def PatternsOk (cfg : LexConfig) : Prop :=
  ∀ re ∈ cfg.lex_rules, ∀ s m, re s = some m → m <+: s

/-- No rule of the given index list matches the remaining suffix. -/
def NoRuleMatches (cfg : LexConfig) (str_slice : Chars) (rules : List Nat) : Prop :=
  ∀ i ∈ rules, (cfg.lex_rules[i]?.bind fun re => re str_slice) = none

/-! ### Concrete rule tables used by the witnesses -/

/-- Anchored literal pattern. -/
def litPat (lit : Chars) : Chars → Option Chars :=
  fun s => if lit.isPrefixOf s then some lit else none

/-- Anchored `\s+`-style whitespace pattern (blanks only). -/
def wsPat : Chars → Option Chars :=
  fun s =>
    let m := s.takeWhile (· == ' ')
    if m.length = 0 then none else some m

/-- Anchored `\d+` pattern. -/
def numPat : Chars → Option Chars :=
  fun s =>
    let m := s.takeWhile Char.isDigit
    if m.length = 0 then none else some m

/-- Pattern matching the empty string at every position. -/
def epsPat : Chars → Option Chars := fun _ => some []

/-- The calc-style rule table of the example grammar: skip whitespace,
`NUMBER`, `+`, `*`. -/
def cfgCalc : LexConfig where
  lex_rules := [wsPat, numPat, litPat [ '+'], litPat [ '*']]
  lex_rules_by_start_conditions := fun s =>
    if s = "INITIAL" then some [0, 1, 2, 3] else none
  tokens_map := fun n =>
    if n = "NUMBER" then some 1
    else if n = "PLUS" then some 2
    else if n = "MUL" then some 3
    else if n = "$" then some 0 else none
  eof := "$"
  handlers :=
    [fun t => (t, ""), fun t => (t, "NUMBER"), fun t => (t, "PLUS"), fun t => (t, "MUL")]

/-- A table whose first rule matches `a` and whose second rule matches
the strictly longer `aa`: exercises the priority-over-length policy. -/
def cfgPrio : LexConfig where
  lex_rules := [litPat [ 'a'], litPat [ 'a', 'a']]
  lex_rules_by_start_conditions := fun s =>
    if s = "INITIAL" then some [0, 1] else none
  tokens_map := fun n =>
    if n = "A" then some 1 else if n = "AA" then some 2
    else if n = "$" then some 0 else none
  eof := "$"
  handlers := [fun t => (t, "A"), fun t => (t, "AA")]

/-- A table with a rule that matches the empty string and emits a real
(non-end-of-stream) token `E`. -/
def cfgEps : LexConfig where
  lex_rules := [epsPat]
  lex_rules_by_start_conditions := fun s =>
    if s = "INITIAL" then some [0] else none
  tokens_map := fun n =>
    if n = "E" then some 5 else if n = "$" then some 0 else none
  eof := "$"
  handlers := [fun t => (t, "E")]

/-- A tokenizer state whose end-of-stream token has already been
emitted (cursor one past the end), with non-trivial stale location
registers from an earlier match. -/
def stPastEof : Tokenizer :=
  { Tokenizer.new.init_string [ 'a', 'b'] with
    cursor := 3
    current_line := 4
    current_column := 5
    current_line_begin_offset := 6
    token_start_offset := 7
    token_end_offset := 8
    token_start_line := 9
    token_end_line := 10
    token_start_column := 11
    token_end_column := 12 }

/-- The spec's lexical-error example: scanning `"2 @ 2"` with the calc
table, positioned at the `@` (cursor 2, line 1, column 2). -/
def stAtBad : Tokenizer :=
  { Tokenizer.new.init_string [ '2', ' ', '@', ' ', '2'] with
    cursor := 2
    current_column := 2 }

/-- The `UnexpectedToken` payload the engine raises on `"2 @ 2"` at the
`@`: offending character `@`, line 1, column 2, and the diagnostic text
`\n\n2 @ 2\n  ^\n`. -/
def eAt : UnexpectedTokenError :=
  { line_data := [ '\n', '\n', '2', ' ', '@', ' ', '2', '\n', ' ', ' ', '^', '\n']
    string := [ '@']
    line := 1
    column := 2 }

/-- Three-character source with an interior newline. -/
def sNl : Chars := [ 'a', '\n', 'b']

/-- Fresh tokenizer on `sNl`. -/
def stNl : Tokenizer := Tokenizer.new.init_string sNl

/-- Pattern matching the whole of `sNl` (newline included). -/
def reNl : Chars → Option Chars := litPat sNl

/-- The state after `_match` consumes the whole of `sNl` at cursor 0:
the match spans the newline, so the end position is line 2, column 1. -/
def stNl1 : Tokenizer :=
  { string := sNl
    cursor := 3
    states := ["INITIAL"]
    current_line := 2
    current_column := 1
    current_line_begin_offset := 2
    token_start_offset := 0
    token_end_offset := 3
    token_start_line := 1
    token_end_line := 2
    token_start_column := 0
    token_end_column := 1
    yytext := []
    yyleng := 0
    yybuffer := [] }

/-! ### Theorems -/

/-- `nlScan` only rewrites `current_line` and
`current_line_begin_offset`. -/
theorem nlScan_shape (m : Chars) : ∀ (t : Tokenizer) (i : Nat),
    ∃ L B, Tokenizer.nlScan t m i =
      { t with current_line := L, current_line_begin_offset := B } := by
  induction m with
  | nil =>
    intro t i
    exact ⟨t.current_line, t.current_line_begin_offset, rfl⟩
  | cons c cs ih =>
    intro t i
    by_cases hc : c = '\n'
    · obtain ⟨L, B, h⟩ := ih
        { t with
          current_line := t.current_line + 1
          current_line_begin_offset := t.token_start_offset + (i : Int) + 1 } (i + 1)
      exact ⟨L, B, by rw [Tokenizer.nlScan, if_pos hc]; exact h⟩
    · obtain ⟨L, B, h⟩ := ih t (i + 1)
      exact ⟨L, B, by rw [Tokenizer.nlScan, if_neg hc]; exact h⟩

/-- The full effect of `capture_location` on the state, with the final
line counter and line-begin offset abstract. -/
theorem capture_location_shape (t : Tokenizer) (m : Chars) :
    ∃ L B, t.capture_location m =
      { t with
        token_start_offset := t.cursor
        token_start_line := t.current_line
        token_start_column := t.cursor - t.current_line_begin_offset
        current_line := L
        current_line_begin_offset := B
        token_end_offset := t.cursor + (m.length : Int)
        token_end_line := L
        token_end_column := t.cursor + (m.length : Int) - B
        current_column := t.cursor + (m.length : Int) - B } := by
  obtain ⟨L, B, h⟩ := nlScan_shape m
    { t with
      token_start_offset := t.cursor
      token_start_line := t.current_line
      token_start_column := t.cursor - t.current_line_begin_offset } 0
  refine ⟨L, B, ?_⟩
  simp only [Tokenizer.capture_location]
  rw [h]

/-- Characterisation of a successful `_match`. -/
theorem _match_some (t : Tokenizer) (slice : Chars) (re : Chars → Option Chars)
    (m : Chars) (st1 : Tokenizer) (h : t._match slice re = some (m, st1)) :
    re slice = some m ∧
      st1 = { t.capture_location m with
        cursor := (t.capture_location m).cursor + (m.length : Int) } := by
  rw [Tokenizer._match] at h
  rcases hre : re slice with - | m0 <;> rw [hre] at h
  · cases h
  · simp only [Option.some.injEq, Prod.mk.injEq] at h
    obtain ⟨h1, h2⟩ := h
    subst h1
    exact ⟨rfl, h2.symm⟩

/-- A successful `_match` advances the cursor by the matched length and
keeps the source buffer. -/
theorem _match_cursor (t : Tokenizer) (slice : Chars) (re : Chars → Option Chars)
    (m : Chars) (st1 : Tokenizer) (h : t._match slice re = some (m, st1)) :
    st1.cursor = t.cursor + (m.length : Int) ∧ st1.string = t.string := by
  obtain ⟨-, rfl⟩ := _match_some t slice re m st1 h
  obtain ⟨L, B, hcap⟩ := capture_location_shape t m
  rw [hcap]
  exact ⟨rfl, rfl⟩

/-- `applyMatch` hands a token or a skip state whose cursor is the
post-match cursor, bumped by one on a zero-length match, provided the
handlers leave cursor and buffer alone. -/
theorem applyMatch_state (cfg : LexConfig) (st1 : Tokenizer) (i : Nat) (m : Chars)
    (hH : HandlersOk cfg) (st' : Tokenizer)
    (h : applyMatch cfg st1 i m = .skip st' ∨
      ∃ t, applyMatch cfg st1 i m = .done (.tok t st')) :
    st'.cursor = st1.cursor + (if m.length = 0 then 1 else 0) ∧
      st'.string = st1.string := by
  rw [applyMatch] at h
  rcases hh : cfg.handlers[i]? with - | handler
  · rw [hh] at h
    rcases h with h | ⟨t, h⟩ <;> simp at h
  · rw [hh] at h
    have hmem : handler ∈ cfg.handlers := by
      obtain ⟨hlt, he⟩ := List.getElem?_eq_some.mp hh
      exact he ▸ List.getElem_mem hlt
    set st3 : Tokenizer :=
      { (if m.length = 0 then { st1 with cursor := st1.cursor + 1 } else st1) with
        yytext := m, yyleng := m.length } with hst3
    have hc3 : st3.cursor = st1.cursor + (if m.length = 0 then 1 else 0) := by
      rw [hst3]
      split <;> simp
    have hs3 : st3.string = st1.string := by
      rw [hst3]
      split <;> simp
    obtain ⟨hhc, hhs⟩ := hH handler hmem st3
    simp only at h
    rcases h with h | ⟨t, h⟩
    · split at h
      · cases h
        exact ⟨hhc.trans hc3, hhs.trans hs3⟩
      · split at h <;> cases h
    · split at h
      · cases h
      · split at h <;> cases h
        exact ⟨hhc.trans hc3, hhs.trans hs3⟩

/-- Skip states and emitted-token states of the rule loop strictly
advance the cursor and keep the source buffer. -/
theorem tryRules_progress (cfg : LexConfig) (st : Tokenizer) (slice : Chars)
    (hH : HandlersOk cfg) :
    ∀ (rules : List Nat) (st' : Tokenizer),
      (tryRules cfg st slice rules = .skip st' ∨
        ∃ t, tryRules cfg st slice rules = .done (.tok t st')) →
      st.cursor < st'.cursor ∧ st'.string = st.string := by
  intro rules
  induction rules with
  | nil =>
    intro st' h
    rw [tryRules, noMatchEnd] at h
    split at h
    · try dsimp only at h
      rcases h with h | ⟨t, h⟩
      · split at h <;> cases h
      · split at h <;> cases h
        exact ⟨by simp, by simp⟩
    · try dsimp only at h
      rcases h with h | ⟨t, h⟩
      · split at h <;> (try split at h) <;> cases h
      · split at h <;> (try split at h) <;> cases h
  | cons i rest ih =>
    intro st' h
    rw [tryRules] at h
    rcases hr : cfg.lex_rules[i]? with - | re
    · simp only [hr] at h
      rcases h with h | ⟨t, h⟩ <;> cases h
    · simp only [hr] at h
      rcases hm : st._match slice re with - | ⟨m, st1⟩
      · simp only [hm] at h
        exact ih st' h
      · simp only [hm] at h
        have hst1 := _match_cursor st slice re m st1 hm
        obtain ⟨hc', hs'⟩ := applyMatch_state cfg st1 i m hH st' h
        constructor
        · rw [hc', hst1.1]
          split <;> rename_i hz
          · omega
          · have : 0 < m.length := Nat.pos_of_ne_zero hz
            omega
        · rw [hs', hst1.2]

/-- The rule loop never produces the fuel sentinel. -/
theorem tryRules_ne_out_of_fuel (cfg : LexConfig) (st : Tokenizer) (slice : Chars) :
    ∀ rules : List Nat, tryRules cfg st slice rules ≠ .done .out_of_fuel := by
  intro rules
  induction rules with
  | nil =>
    rw [tryRules, noMatchEnd]
    split
    · try dsimp only
      split <;> simp
    · try dsimp only
      split <;> (try split) <;> simp
  | cons i rest ih =>
    rw [tryRules]
    rcases hr : cfg.lex_rules[i]? with - | re
    · simp [hr]
    · simp only [hr]
      rcases hm : st._match slice re with - | ⟨m, st1⟩
      · simp only [hm]
        exact ih
      · simp only [hm, applyMatch]
        rcases hh : cfg.handlers[i]? with - | handler
        · simp [hh]
        · simp only [hh]
          split <;> split <;> (try split) <;> simp

/-- **C7**: when the state stack is empty, `pop_state()` returns the
default state `"INITIAL"` (and leaves the tokenizer unchanged) instead
of failing, and `get_current_state()` likewise returns `"INITIAL"`;
neither operation is fatal on an empty stack. -/
theorem c7_state_stack_underflow_tolerated (st : Tokenizer) (h : st.states = []) :
    st.pop_state = (st, "INITIAL") ∧ st.get_current_state = "INITIAL" := by
  refine ⟨?_, ?_⟩
  · simp [Tokenizer.pop_state, h]
  · simp [Tokenizer.get_current_state, h]

theorem c7_witness :
    Tokenizer.new.pop_state = (Tokenizer.new, "INITIAL") ∧
      Tokenizer.new.get_current_state = "INITIAL" :=
  c7_state_stack_underflow_tolerated Tokenizer.new rfl

/-- **C8**: for every prior engine state, `init_string source` sets the
state stack to exactly `["INITIAL"]`, the cursor to 0, the line to 1,
the column to 0 and the current-line-begin offset to 0 (and zeroes the
token location registers), while preserving the remaining mutable
fields (`yytext`, `yyleng`, `yybuffer`); the static rule table lives in
`LexConfig`, which `init_string` neither reads nor writes, so it is
unchanged.  Re-initialisation on the same instance behaves exactly like
initialising any other instance. -/
theorem c8_init_string_resets (st : Tokenizer) (s : Chars) :
    st.init_string s =
      { string := s
        cursor := 0
        states := ["INITIAL"]
        current_line := 1
        current_column := 0
        current_line_begin_offset := 0
        token_start_offset := 0
        token_end_offset := 0
        token_start_line := 0
        token_end_line := 0
        token_start_column := 0
        token_end_column := 0
        yytext := st.yytext
        yyleng := st.yyleng
        yybuffer := st.yybuffer } ∧
    (∀ s2 : Chars, (st.init_string s).init_string s2 = st.init_string s2) := by
  exact ⟨rfl, fun s2 => rfl⟩

/-- **C9**: once the end-of-stream token has been emitted
(`has_more_tokens()` is false, i.e. the cursor is past the end), every
further `get_next_token` call returns a token of the reserved EOF kind
whose six location fields are the stale `token_*` registers of the last
previously matched token, and the only state change is `yytext`: the
cursor, the line/column bookkeeping and the state stack are untouched. -/
theorem c9_past_eof_stale_token (cfg : LexConfig) (fuel : Nat) (st : Tokenizer)
    (k : Int) (hmore : st.has_more_tokens = false)
    (hk : cfg.tokens_map cfg.eof = some k) (hfuel : 0 < fuel) :
    get_next_token cfg fuel st =
      .tok
        { kind := k
          value := cfg.eof.data
          start_offset := st.token_start_offset
          end_offset := st.token_end_offset
          start_line := st.token_start_line
          end_line := st.token_end_line
          start_column := st.token_start_column
          end_column := st.token_end_column }
        { st with yytext := cfg.eof.data } := by
  cases fuel with
  | zero => exact absurd hfuel (by omega)
  | succ f => simp [get_next_token, lexStep, hmore, Tokenizer.to_token, hk]

theorem c9_witness :
    get_next_token cfgCalc 1 stPastEof =
      .tok
        { kind := 0
          value := "$".data
          start_offset := 7
          end_offset := 8
          start_line := 9
          end_line := 10
          start_column := 11
          end_column := 12 }
        { stPastEof with yytext := "$".data } :=
  c9_past_eof_stale_token cfgCalc 1 stPastEof 0 (by decide) (by decide) (by decide)

/-- **C4**: `has_more_tokens()` is true exactly when
`cursor <= len(source)` and `is_eof()` is true exactly when
`cursor == len(source)`; moreover, once the end-of-stream token has been
returned (cursor one past the end), any further `get_next_token` call
leaves the cursor where it is, so every subsequent `has_more_tokens()`
call returns false. -/
theorem c4_has_more_tokens_iff (st : Tokenizer) :
    (st.has_more_tokens = true ↔ st.cursor ≤ (st.string.length : Int)) ∧
    (st.is_eof = true ↔ st.cursor = (st.string.length : Int)) ∧
    (∀ (cfg : LexConfig) (fuel : Nat) (t : Token) (st' : Tokenizer),
      st.cursor = (st.string.length : Int) + 1 →
      get_next_token cfg fuel st = .tok t st' →
      st'.cursor = st.cursor ∧ st'.has_more_tokens = false) := by
  refine ⟨by simp [Tokenizer.has_more_tokens], by simp [Tokenizer.is_eof], ?_⟩
  intro cfg fuel t st' hc htok
  cases fuel with
  | zero => simp [get_next_token] at htok
  | succ f =>
    have hmore : st.has_more_tokens = false := by
      simp [Tokenizer.has_more_tokens]
      omega
    rw [get_next_token, lexStep, hmore] at htok
    simp only [Bool.false_eq_true, not_false_eq_true, if_pos] at htok
    cases hmk : Tokenizer.to_token cfg { st with yytext := cfg.eof.data } cfg.eof with
    | none => rw [hmk] at htok; simp at htok
    | some t0 =>
      rw [hmk] at htok
      simp only [LexOutcome.tok.injEq] at htok
      obtain ⟨-, rfl⟩ := htok
      refine ⟨rfl, ?_⟩
      simp [Tokenizer.has_more_tokens]
      omega

theorem c4_witness :
    ({ stPastEof with yytext := "$".data } : Tokenizer).cursor = stPastEof.cursor ∧
      ({ stPastEof with yytext := "$".data } : Tokenizer).has_more_tokens = false :=
  (c4_has_more_tokens_iff stPastEof).2.2 cfgCalc 1
    { kind := 0
      value := "$".data
      start_offset := 7
      end_offset := 8
      start_line := 9
      end_line := 10
      start_column := 11
      end_column := 12 }
    { stPastEof with yytext := "$".data } (by decide) (by decide)

/-- Helper for the priority policy: the rule loop skips a block of
non-matching rules and commits to the first rule whose pattern matches,
never looking at any later rule. -/
theorem tryRules_first_match (cfg : LexConfig) (st : Tokenizer) (slice : Chars)
    (l1 rest : List Nat) (a : Nat) (rea : Chars → Option Chars) (ma : Chars)
    (hfail : ∀ i ∈ l1, ∃ re, cfg.lex_rules[i]? = some re ∧ re slice = none)
    (hra : cfg.lex_rules[a]? = some rea) (hma : rea slice = some ma) :
    tryRules cfg st slice (l1 ++ a :: rest) =
      applyMatch cfg
        { st.capture_location ma with
          cursor := (st.capture_location ma).cursor + (ma.length : Int) }
        a ma := by
  induction l1 with
  | nil => simp [tryRules, hra, Tokenizer._match, hma]
  | cons i l1 ih =>
    obtain ⟨re, hre, hnone⟩ := hfail i (List.mem_cons_self i l1)
    simp only [List.cons_append, tryRules, hre, Tokenizer._match, hnone]
    exact ih fun j hj => hfail j (List.mem_cons_of_mem i hj)

/-- **C1**: with the active state's rule list `l1 ++ a :: rest` where no
rule of `l1` matches and rule `a`'s pattern matches `ma` at the start of
the remaining suffix, `get_next_token`'s scanning step commits to rule
`a`: it records `a`'s match and runs `a`'s handler (`applyMatch … a ma`),
and the rules in `rest` are never tried — the result does not depend on
`rest`, even when some rule `b` there has a strictly longer match `mb`. -/
theorem c1_priority_over_length (cfg : LexConfig) (st : Tokenizer)
    (l1 rest : List Nat) (a b : Nat)
    (rea reb : Chars → Option Chars) (ma mb : Chars)
    (hcur : 0 ≤ st.cursor) (hlen : st.cursor ≤ (st.string.length : Int))
    (hstate : cfg.lex_rules_by_start_conditions st.get_current_state =
      some (l1 ++ a :: rest))
    (hfail : ∀ i ∈ l1, ∃ re, cfg.lex_rules[i]? = some re ∧
      re (st.string.drop st.cursor.toNat) = none)
    (hra : cfg.lex_rules[a]? = some rea)
    (hma : rea (st.string.drop st.cursor.toNat) = some ma)
    (hb : b ∈ rest) (hrb : cfg.lex_rules[b]? = some reb)
    (hmb : reb (st.string.drop st.cursor.toNat) = some mb)
    (hlonger : ma.length < mb.length) :
    lexStep cfg st =
      applyMatch cfg
        { st.capture_location ma with
          cursor := (st.capture_location ma).cursor + (ma.length : Int) }
        a ma := by
  have hmore : st.has_more_tokens = true := by
    simp [Tokenizer.has_more_tokens]
    omega
  rw [lexStep, hmore]
  simp only [Bool.true_eq_false, not_true_eq_false, if_neg, not_false_eq_true]
  rw [show dropSlice st = some (st.string.drop st.cursor.toNat) by
    simp [dropSlice, hcur, hlen]]
  rw [hstate]
  exact tryRules_first_match cfg st _ l1 rest a rea ma hfail hra hma

theorem c1_witness :
    lexStep cfgPrio (Tokenizer.new.init_string [ 'a', 'a', 'b']) =
      applyMatch cfgPrio
        { (Tokenizer.new.init_string [ 'a', 'a', 'b']).capture_location [ 'a'] with
          cursor :=
            ((Tokenizer.new.init_string [ 'a', 'a', 'b']).capture_location
              [ 'a']).cursor + (1 : Int) }
        0 [ 'a'] :=
  c1_priority_over_length cfgPrio (Tokenizer.new.init_string [ 'a', 'a', 'b'])
    [] [1] 0 1 (litPat [ 'a']) (litPat [ 'a', 'a']) [ 'a'] [ 'a', 'a']
    (by decide) (by decide) rfl (by simp) rfl (by decide)
    (by decide) rfl (by decide) (by decide)

theorem mem_of_getElem? {α : Type} {l : List α} {i : Nat} {a : α}
    (h : l[i]? = some a) : a ∈ l := by
  obtain ⟨hlt, he⟩ := List.getElem?_eq_some.mp h
  exact he ▸ List.getElem_mem hlt

/-- A successful remaining-suffix slice certifies the cursor bounds. -/
theorem dropSlice_some (st : Tokenizer) (slice : Chars)
    (h : dropSlice st = some slice) :
    0 ≤ st.cursor ∧ st.cursor ≤ (st.string.length : Int) ∧
      slice = st.string.drop st.cursor.toNat := by
  rw [dropSlice] at h
  split at h
  · rename_i hcond
    cases h
    exact ⟨hcond.1, hcond.2, rfl⟩
  · cases h

/-- `lexStep` never produces the fuel sentinel. -/
theorem lexStep_ne_out_of_fuel (cfg : LexConfig) (st : Tokenizer) :
    lexStep cfg st ≠ .done .out_of_fuel := by
  rw [lexStep]
  split
  · try dsimp only
    split <;> simp
  · rcases hd : dropSlice st with - | slice
    · simp [hd]
    · simp only [hd]
      rcases hr : cfg.lex_rules_by_start_conditions st.get_current_state with - | rules
      · simp [hr]
      · simp only [hr]
        exact tryRules_ne_out_of_fuel cfg st slice rules

/-- A skip result of `lexStep` happens only while scanning
(`cursor ≤ len`), strictly advances the cursor, and keeps the buffer. -/
theorem lexStep_skip (cfg : LexConfig) (st st' : Tokenizer) (hH : HandlersOk cfg)
    (h : lexStep cfg st = .skip st') :
    0 ≤ st.cursor ∧ st.cursor ≤ (st.string.length : Int) ∧
      st.cursor < st'.cursor ∧ st'.string = st.string := by
  rw [lexStep] at h
  split at h
  · try dsimp only at h
    split at h <;> cases h
  · rcases hd : dropSlice st with - | slice
    · simp only [hd] at h
      cases h
    · simp only [hd] at h
      obtain ⟨h0, hb, -⟩ := dropSlice_some st slice hd
      rcases hr : cfg.lex_rules_by_start_conditions st.get_current_state with - | rules
      · simp only [hr] at h
        cases h
      · simp only [hr] at h
        obtain ⟨h1, h2⟩ := tryRules_progress cfg st slice hH rules st' (Or.inl h)
        exact ⟨h0, hb, h1, h2⟩

/-- A token result of `lexStep` is either the past-end-of-stream echo
(state unchanged but for `yytext`) or a genuine scan step that strictly
advances the cursor. -/
theorem lexStep_tok (cfg : LexConfig) (st st' : Tokenizer) (t : Token)
    (hH : HandlersOk cfg) (h : lexStep cfg st = .done (.tok t st')) :
    (st.has_more_tokens = false ∧ st' = { st with yytext := cfg.eof.data }) ∨
      (0 ≤ st.cursor ∧ st.cursor ≤ (st.string.length : Int) ∧
        st.cursor < st'.cursor ∧ st'.string = st.string) := by
  rw [lexStep] at h
  split at h
  · rename_i hmore
    left
    refine ⟨by simpa using hmore, ?_⟩
    try dsimp only at h
    split at h <;> cases h
    rfl
  · rcases hd : dropSlice st with - | slice
    · simp only [hd] at h
      cases h
    · simp only [hd] at h
      obtain ⟨h0, hb, -⟩ := dropSlice_some st slice hd
      rcases hr : cfg.lex_rules_by_start_conditions st.get_current_state with - | rules
      · simp only [hr] at h
        cases h
      · simp only [hr] at h
        obtain ⟨h1, h2⟩ := tryRules_progress cfg st slice hH rules st' (Or.inr ⟨t, h⟩)
        exact Or.inr ⟨h0, hb, h1, h2⟩

/-- Across a whole `get_next_token` activation the buffer is preserved,
the cursor never decreases, and it strictly increases when the call
starts at or before end-of-buffer. -/
theorem get_next_token_state (cfg : LexConfig) (hH : HandlersOk cfg) :
    ∀ (fuel : Nat) (st : Tokenizer) (t : Token) (st' : Tokenizer),
      get_next_token cfg fuel st = .tok t st' →
      st'.string = st.string ∧ st.cursor ≤ st'.cursor ∧
        (st.cursor ≤ (st.string.length : Int) → st.cursor < st'.cursor) := by
  intro fuel
  induction fuel with
  | zero =>
    intro st t st' h
    simp [get_next_token] at h
  | succ f ih =>
    intro st t st' h
    rw [get_next_token] at h
    rcases hs : lexStep cfg st with o | st1
    · simp only [hs] at h
      subst h
      rcases lexStep_tok cfg st st' t hH hs with ⟨hm, rfl⟩ | ⟨h0, hb, hlt, hstr⟩
      · refine ⟨rfl, le_rfl, ?_⟩
        intro hle
        simp only [Tokenizer.has_more_tokens, decide_eq_false_iff_not] at hm
        omega
      · exact ⟨hstr, le_of_lt hlt, fun _ => hlt⟩
    · simp only [hs] at h
      obtain ⟨h0, hb, hlt, hstr⟩ := lexStep_skip cfg st st1 hH hs
      obtain ⟨ih1, ih2, -⟩ := ih st1 t st' h
      exact ⟨ih1.trans hstr, le_of_lt (lt_of_lt_of_le hlt ih2),
        fun _ => lt_of_lt_of_le hlt ih2⟩

/-- With fuel at least `len + 2 - cursor`, the skip-recursion always
bottoms out (handlers must not move the cursor backwards). -/
theorem get_next_token_terminates (cfg : LexConfig) (hH : HandlersOk cfg) :
    ∀ (fuel : Nat) (st : Tokenizer),
      (st.string.length : Int) + 2 - st.cursor ≤ (fuel : Int) → 0 < fuel →
      get_next_token cfg fuel st ≠ .out_of_fuel := by
  intro fuel
  induction fuel with
  | zero =>
    intro st hf h0
    omega
  | succ f ih =>
    intro st hf h0
    rw [get_next_token]
    rcases hs : lexStep cfg st with o | st1
    · simp only [hs]
      intro hcon
      exact lexStep_ne_out_of_fuel cfg st (by rw [hs, hcon])
    · simp only [hs]
      obtain ⟨hc0, hb, hlt, hstr⟩ := lexStep_skip cfg st st1 hH hs
      have hlen : (st1.string.length : Int) = (st.string.length : Int) := by rw [hstr]
      apply ih st1
      · omega
      · omega

/-- **C3**: under handlers that do not move the cursor or rebind the
buffer, every successful `get_next_token` call (through any number of
skip recursions) strictly increases the cursor unless end-of-stream was
already reached before the call (in which case it is unchanged), and
with fuel `len + 2 - cursor` the skip recursion terminates — in
particular zero-length matches cannot loop forever, thanks to the
one-extra-position bump. -/
theorem c3_progress_and_termination (cfg : LexConfig) (fuel : Nat) (st : Tokenizer)
    (hH : HandlersOk cfg) :
    (∀ (t : Token) (st' : Tokenizer), get_next_token cfg fuel st = .tok t st' →
      st.cursor ≤ st'.cursor ∧
        (st.cursor ≤ (st.string.length : Int) → st.cursor < st'.cursor)) ∧
    ((st.string.length : Int) + 2 - st.cursor ≤ (fuel : Int) → 0 < fuel →
      get_next_token cfg fuel st ≠ .out_of_fuel) := by
  constructor
  · intro t st' h
    obtain ⟨-, h1, h2⟩ := get_next_token_state cfg hH fuel st t st' h
    exact ⟨h1, h2⟩
  · exact get_next_token_terminates cfg hH fuel st

/-- The calc-table handlers only return token names. -/
theorem handlersOk_cfgCalc : HandlersOk cfgCalc := by
  intro h hm st
  simp only [cfgCalc, List.mem_cons, List.not_mem_nil, or_false] at hm
  rcases hm with rfl | rfl | rfl | rfl <;> exact ⟨rfl, rfl⟩

/-- The calc-table patterns are anchored. -/
theorem patternsOk_cfgCalc : PatternsOk cfgCalc := by
  intro re hre s m h
  simp only [cfgCalc, List.mem_cons, List.not_mem_nil, or_false] at hre
  rcases hre with rfl | rfl | rfl | rfl
  · simp only [wsPat] at h
    split at h
    · cases h
    · simp only [Option.some.injEq] at h
      subst h
      exact List.takeWhile_prefix _
  · simp only [numPat] at h
    split at h
    · cases h
    · simp only [Option.some.injEq] at h
      subst h
      exact List.takeWhile_prefix _
  · simp only [litPat] at h
    split at h
    · rename_i hp
      simp only [Option.some.injEq] at h
      subst h
      exact List.isPrefixOf_iff_prefix.mp hp
    · cases h
  · simp only [litPat] at h
    split at h
    · rename_i hp
      simp only [Option.some.injEq] at h
      subst h
      exact List.isPrefixOf_iff_prefix.mp hp
    · cases h

theorem c3_witness :
    ((Tokenizer.new.init_string [ '2']).cursor ≤ (1 : Int) ∧
      ((Tokenizer.new.init_string [ '2']).cursor ≤
          (((Tokenizer.new.init_string [ '2']).string.length : Nat) : Int) →
        (Tokenizer.new.init_string [ '2']).cursor < (1 : Int))) ∧
      get_next_token cfgCalc 3 (Tokenizer.new.init_string [ '2']) ≠ .out_of_fuel := by
  have h := c3_progress_and_termination cfgCalc 3 (Tokenizer.new.init_string [ '2'])
    handlersOk_cfgCalc
  refine ⟨?_, h.2 (by decide) (by decide)⟩
  have h1 := h.1
    { kind := 1
      value := [ '2']
      start_offset := 0
      end_offset := 1
      start_line := 1
      end_line := 1
      start_column := 0
      end_column := 1 }
    { string := [ '2']
      cursor := 1
      states := ["INITIAL"]
      current_line := 1
      current_column := 1
      current_line_begin_offset := 0
      token_start_offset := 0
      token_end_offset := 1
      token_start_line := 1
      token_end_line := 1
      token_start_column := 0
      token_end_column := 1
      yytext := [ '2']
      yyleng := 1
      yybuffer := [] } (by decide)
  exact h1

/-- Upper bound for the rule loop: with anchored patterns, a skip or
token state stays at most one past the end of the buffer, and lands
exactly one past the end only when the loop started exactly at the
end. -/
theorem tryRules_upper (cfg : LexConfig) (st : Tokenizer)
    (hH : HandlersOk cfg) (hP : PatternsOk cfg)
    (h0 : 0 ≤ st.cursor) (hb : st.cursor ≤ (st.string.length : Int)) :
    ∀ (rules : List Nat) (st' : Tokenizer),
      (tryRules cfg st (st.string.drop st.cursor.toNat) rules = .skip st' ∨
        ∃ t, tryRules cfg st (st.string.drop st.cursor.toNat) rules =
          .done (.tok t st')) →
      st'.cursor ≤ (st.string.length : Int) + 1 ∧
        (st'.cursor = (st.string.length : Int) + 1 →
          st.cursor = (st.string.length : Int)) := by
  intro rules
  induction rules with
  | nil =>
    intro st' h
    rw [tryRules, noMatchEnd] at h
    split at h
    · rename_i he
      have hc : st.cursor = (st.string.length : Int) := by
        simpa [Tokenizer.is_eof] using he
      try dsimp only at h
      rcases h with h | ⟨t, h⟩
      · split at h <;> cases h
      · split at h <;> cases h
        refine ⟨?_, fun _ => hc⟩
        show st.cursor + 1 ≤ (st.string.length : Int) + 1
        omega
    · try dsimp only at h
      rcases h with h | ⟨t, h⟩ <;> (split at h <;> (try split at h) <;> cases h)
  | cons i rest ih =>
    intro st' h
    rw [tryRules] at h
    rcases hr : cfg.lex_rules[i]? with - | re
    · simp only [hr] at h
      rcases h with h | ⟨t, h⟩ <;> cases h
    · simp only [hr] at h
      rcases hm : st._match (st.string.drop st.cursor.toNat) re with - | ⟨m, st1⟩
      · simp only [hm] at h
        exact ih st' h
      · simp only [hm] at h
        obtain ⟨hre, -⟩ := _match_some st _ re m st1 hm
        obtain ⟨hc1, -⟩ := _match_cursor st _ re m st1 hm
        have hpre : m <+: st.string.drop st.cursor.toNat :=
          hP re (mem_of_getElem? hr) _ m hre
        have hmlen : m.length ≤ st.string.length - st.cursor.toNat := by
          have h1 := hpre.length_le
          simpa [List.length_drop] using h1
        obtain ⟨hc', -⟩ := applyMatch_state cfg st1 i m hH st' h
        rw [hc1] at hc'
        rcases Nat.eq_zero_or_pos m.length with hz | hz
        · rw [if_pos hz] at hc'
          refine ⟨by omega, by omega⟩
        · rw [if_neg (by omega)] at hc'
          refine ⟨by omega, by omega⟩

/-- Upper bound for one scanning pass. -/
theorem lexStep_upper (cfg : LexConfig) (st st' : Tokenizer)
    (hH : HandlersOk cfg) (hP : PatternsOk cfg)
    (h : lexStep cfg st = .skip st' ∨ ∃ t, lexStep cfg st = .done (.tok t st')) :
    0 ≤ st.cursor → st.cursor ≤ (st.string.length : Int) →
    st'.cursor ≤ (st.string.length : Int) + 1 ∧
      (st'.cursor = (st.string.length : Int) + 1 →
        st.cursor = (st.string.length : Int)) := by
  intro h0 hb
  rw [lexStep] at h
  split at h
  · rename_i hmore
    exact absurd (by simp [Tokenizer.has_more_tokens]; omega) hmore
  · rcases hd : dropSlice st with - | slice
    · simp only [hd] at h
      rcases h with h | ⟨t, h⟩ <;> cases h
    · simp only [hd] at h
      obtain ⟨-, -, rfl⟩ := dropSlice_some st slice hd
      rcases hr : cfg.lex_rules_by_start_conditions st.get_current_state with - | rules
      · simp only [hr] at h
        rcases h with h | ⟨t, h⟩ <;> cases h
      · simp only [hr] at h
        exact tryRules_upper cfg st hH hP h0 hb rules st' h

/-- Across a whole `get_next_token` activation the cursor stays at most
one past the end of the buffer. -/
theorem get_next_token_upper (cfg : LexConfig) (hH : HandlersOk cfg)
    (hP : PatternsOk cfg) :
    ∀ (fuel : Nat) (st : Tokenizer) (t : Token) (st' : Tokenizer),
      0 ≤ st.cursor → st.cursor ≤ (st.string.length : Int) + 1 →
      get_next_token cfg fuel st = .tok t st' →
      st'.cursor ≤ (st.string.length : Int) + 1 := by
  intro fuel
  induction fuel with
  | zero =>
    intro st t st' h0 hb h
    simp [get_next_token] at h
  | succ f ih =>
    intro st t st' h0 hb h
    rw [get_next_token] at h
    rcases hs : lexStep cfg st with o | st1
    · simp only [hs] at h
      subst h
      rcases lexStep_tok cfg st st' t hH hs with ⟨hm, rfl⟩ | ⟨hc0, hcb, hlt, hstr⟩
      · exact hb
      · exact (lexStep_upper cfg st st' hH hP (Or.inr ⟨t, hs⟩) hc0 hcb).1
    · simp only [hs] at h
      obtain ⟨hc0, hcb, hlt, hstr⟩ := lexStep_skip cfg st st1 hH hs
      have h1 := (lexStep_upper cfg st st1 hH hP (Or.inl hs) hc0 hcb).1
      have h2 := ih st1 t st' (by omega) (by rw [hstr]; exact h1) h
      rw [hstr] at h2
      exact h2

/-- **C6 (amended)**: with anchored patterns and cursor-preserving
handlers, across every `get_next_token` call starting in the scanning
range the cursor never decreases and stays within
`0 ≤ cursor ≤ len + 1`; and in any single scanning pass the terminal
value `len + 1` is reached only by a one-step advance from
`cursor = len` (the EOF branch, or a zero-length match at end of
source) — not exclusively by the step that emits the end-of-stream
token, see `c6_counterexample`. -/
theorem c6_cursor_bounds (cfg : LexConfig) (fuel : Nat) (st : Tokenizer)
    (hH : HandlersOk cfg) (hP : PatternsOk cfg)
    (h0 : 0 ≤ st.cursor) (hb : st.cursor ≤ (st.string.length : Int)) :
    (∀ (t : Token) (st' : Tokenizer), get_next_token cfg fuel st = .tok t st' →
      st.cursor ≤ st'.cursor ∧ st'.cursor ≤ (st.string.length : Int) + 1) ∧
    (∀ st' : Tokenizer, lexStep cfg st = .skip st' →
      st'.cursor = (st.string.length : Int) + 1 →
      st.cursor = (st.string.length : Int)) ∧
    (∀ (t : Token) (st' : Tokenizer), lexStep cfg st = .done (.tok t st') →
      st'.cursor = (st.string.length : Int) + 1 →
      st.cursor = (st.string.length : Int)) := by
  refine ⟨?_, ?_, ?_⟩
  · intro t st' h
    obtain ⟨-, h1, -⟩ := get_next_token_state cfg hH fuel st t st' h
    exact ⟨h1, get_next_token_upper cfg hH hP fuel st t st' h0 (by omega) h⟩
  · intro st' hs
    exact (lexStep_upper cfg st st' hH hP (Or.inl hs) h0 hb).2
  · intro t st' hs
    exact (lexStep_upper cfg st st' hH hP (Or.inr ⟨t, hs⟩) h0 hb).2

/-- **C6, counterexample**: on the empty source with a rule whose
pattern matches the empty string and whose handler emits the ordinary
token `E` (kind 5), the very first `get_next_token` call leaves the
cursor at `len(source) + 1 = 1` while emitting a token whose kind (5)
is not the reserved end-of-stream kind (0): the terminal cursor value is
also reachable via a zero-length match at end of source, not only via
the step that emits the end-of-stream token. -/
theorem c6_counterexample :
    get_next_token cfgEps 1 (Tokenizer.new.init_string []) =
      .tok
        { kind := 5
          value := []
          start_offset := 0
          end_offset := 0
          start_line := 1
          end_line := 1
          start_column := 0
          end_column := 0 }
        { string := []
          cursor := 1
          states := ["INITIAL"]
          current_line := 1
          current_column := 0
          current_line_begin_offset := 0
          token_start_offset := 0
          token_end_offset := 0
          token_start_line := 1
          token_end_line := 1
          token_start_column := 0
          token_end_column := 0
          yytext := []
          yyleng := 0
          yybuffer := [] } ∧
      (1 : Int) = ((Tokenizer.new.init_string []).string.length : Int) + 1 ∧
      cfgEps.tokens_map cfgEps.eof = some 0 ∧ (5 : Int) ≠ 0 := by
  refine ⟨by decide, by decide, by decide, by decide⟩

theorem c6_witness :
    (Tokenizer.new.init_string [ '2']).cursor ≤ (1 : Int) ∧
      (1 : Int) ≤ (((Tokenizer.new.init_string [ '2']).string.length : Nat) : Int) + 1 :=
  (c6_cursor_bounds cfgCalc 3 (Tokenizer.new.init_string [ '2'])
    handlersOk_cfgCalc patternsOk_cfgCalc (by decide) (by decide)).1
    { kind := 1
      value := [ '2']
      start_offset := 0
      end_offset := 1
      start_line := 1
      end_line := 1
      start_column := 0
      end_column := 1 }
    { string := [ '2']
      cursor := 1
      states := ["INITIAL"]
      current_line := 1
      current_column := 1
      current_line_begin_offset := 0
      token_start_offset := 0
      token_end_offset := 1
      token_start_line := 1
      token_end_line := 1
      token_start_column := 0
      token_end_column := 1
      yytext := [ '2']
      yyleng := 1
      yybuffer := [] } (by decide)

theorem countNl_cons (c : Char) (cs : Chars) :
    countNl (c :: cs) = countNl cs + (if c = '\n' then 1 else 0) := by
  simp [countNl, List.count_cons, beq_iff_eq]

theorem countNl_append (a b : Chars) :
    countNl (a ++ b) = countNl a + countNl b := by
  simp [countNl]

/-- Taking `p + |m|` characters where `m` sits at offset `p`. -/
theorem take_add_of_prefix_drop (s m : Chars) (p : Nat) (hp : p ≤ s.length)
    (hpre : m <+: s.drop p) : s.take (p + m.length) = s.take p ++ m := by
  obtain ⟨r, hr⟩ := hpre
  have hs : s = s.take p ++ (m ++ r) := by
    conv_lhs => rw [← List.take_append_drop p s, ← hr]
  have hlen : (s.take p).length = p := by
    simp [List.length_take, Nat.min_eq_left hp]
  conv_lhs => rw [hs]
  rw [List.take_append_eq_append_take, List.take_of_length_le (by omega), hlen]
  have : p + m.length - p = m.length := by omega
  rw [this, List.take_append_of_le_length (le_refl m.length),
    List.take_of_length_le (le_refl m.length)]

theorem countNl_take_add (s m : Chars) (p : Nat) (hp : p ≤ s.length)
    (hpre : m <+: s.drop p) :
    countNl (s.take (p + m.length)) = countNl (s.take p) + countNl m := by
  rw [take_add_of_prefix_drop s m p hp hpre, countNl_append]

theorem lineBeginOffset_le (s : Chars) : ∀ p : Nat, lineBeginOffset s p ≤ p := by
  intro p
  induction p with
  | zero => simp [lineBeginOffset]
  | succ q ih =>
    rw [lineBeginOffset]
    split
    · exact le_refl _
    · omega

/-- The newline scan is exactly absolute line accounting: run on the
text sitting at offset `p` of the buffer, it adds the matched text's
newline count to the line counter and moves the line-begin offset to
the line begin of `p + |m|`. -/
theorem nlScan_spec (s : Chars) : ∀ (m : Chars) (t : Tokenizer) (idx p : Nat),
    t.token_start_offset + (idx : Int) = (p : Int) →
    m <+: s.drop p →
    t.current_line_begin_offset = (lineBeginOffset s p : Int) →
    (Tokenizer.nlScan t m idx).current_line = t.current_line + (countNl m : Int) ∧
      (Tokenizer.nlScan t m idx).current_line_begin_offset =
        (lineBeginOffset s (p + m.length) : Int) := by
  intro m
  induction m with
  | nil =>
    intro t idx p hp hpre hb
    rw [Tokenizer.nlScan]
    refine ⟨by simp [countNl], ?_⟩
    simpa using hb
  | cons c cs ih =>
    intro t idx p hp hpre hb
    obtain ⟨r, hr⟩ := hpre
    have hget : s[p]? = some c := by
      have h0 : (s.drop p)[0]? = some c := by
        rw [← hr]
        simp
      rwa [List.getElem?_drop, Nat.add_zero] at h0
    have hdrop : s.drop (p + 1) = cs ++ r := by
      have h1 : (s.drop p).drop 1 = cs ++ r := by
        rw [← hr]
        rfl
      rwa [List.drop_drop] at h1
    have hpre1 : cs <+: s.drop (p + 1) := ⟨r, hdrop.symm⟩
    have hlb : lineBeginOffset s (p + 1) =
        if s[p]? = some '\n' then p + 1 else lineBeginOffset s p := rfl
    rw [Tokenizer.nlScan]
    by_cases hc : c = '\n'
    · rw [if_pos hc]
      have hres := ih
        { t with
          current_line := t.current_line + 1
          current_line_begin_offset := t.token_start_offset + (idx : Int) + 1 }
        (idx + 1) (p + 1) (by push_cast; omega) hpre1
        (by
          show t.token_start_offset + (idx : Int) + 1 = _
          rw [hlb, if_pos (by rw [hget, hc]), hp]
          push_cast
          ring)
      rw [hres.1, hres.2]
      constructor
      · rw [countNl_cons, if_pos hc]
        push_cast
        ring
      · have harith : p + 1 + cs.length = p + (c :: cs).length := by
          simp
          omega
        rw [harith]
    · rw [if_neg hc]
      have hres := ih t (idx + 1) (p + 1)
        (by push_cast; omega) hpre1
        (by
          rw [hlb, if_neg (by rw [hget]; simp [hc])]
          exact hb)
      rw [hres.1, hres.2]
      constructor
      · rw [countNl_cons, if_neg hc]
        push_cast
        ring
      · have harith : p + 1 + cs.length = p + (c :: cs).length := by
          simp
          omega
        rw [harith]

/-- Projections of `capture_location` that do not depend on the newline
scan. -/
theorem capture_location_proj (st : Tokenizer) (m : Chars) :
    (st.capture_location m).cursor = st.cursor ∧
      (st.capture_location m).string = st.string ∧
      (st.capture_location m).states = st.states ∧
      (st.capture_location m).token_start_offset = st.cursor ∧
      (st.capture_location m).token_start_line = st.current_line ∧
      (st.capture_location m).token_start_column =
        st.cursor - st.current_line_begin_offset ∧
      (st.capture_location m).token_end_offset = st.cursor + (m.length : Int) ∧
      (st.capture_location m).token_end_line = (st.capture_location m).current_line ∧
      (st.capture_location m).token_end_column =
        st.cursor + (m.length : Int) - (st.capture_location m).current_line_begin_offset ∧
      (st.capture_location m).current_column = (st.capture_location m).token_end_column := by
  obtain ⟨L, B, h⟩ := capture_location_shape st m
  rw [h]
  exact ⟨rfl, rfl, rfl, rfl, rfl, rfl, rfl, rfl, rfl, rfl⟩

/-- The line counter and line-begin offset after `capture_location`. -/
theorem capture_location_line (st : Tokenizer) (m : Chars)
    (h0 : 0 ≤ st.cursor)
    (hpre : m <+: st.string.drop st.cursor.toNat)
    (hbegin : st.current_line_begin_offset =
      (lineBeginOffset st.string st.cursor.toNat : Int)) :
    (st.capture_location m).current_line = st.current_line + (countNl m : Int) ∧
      (st.capture_location m).current_line_begin_offset =
        (lineBeginOffset st.string (st.cursor.toNat + m.length) : Int) := by
  have hspec := nlScan_spec st.string m
    { st with
      token_start_offset := st.cursor
      token_start_line := st.current_line
      token_start_column := st.cursor - st.current_line_begin_offset }
    0 st.cursor.toNat
    (by
      show st.cursor + (0 : Int) = _
      rw [Int.toNat_of_nonneg h0]
      ring)
    hpre
    (by exact hbegin)
  exact hspec

/-- **C5**: for every token produced by a successful match under the
line-tracking invariant: with `k` newlines before the start offset
`X = cursor`, the captured location has `start_line = k + 1` and
`start_column = X - offset_of_line_start`; the end location accounts
for every newline inside the matched text (`end_line`/`end_column` are
the same functions of the end offset), and the invariant is
re-established at the advanced cursor. -/
theorem c5_position_roundtrip (st st1 : Tokenizer) (re : Chars → Option Chars)
    (m : Chars)
    (hb : st.cursor ≤ (st.string.length : Int))
    (hinv : st.LineInv)
    (hpre : m <+: st.string.drop st.cursor.toNat)
    (hm : st._match (st.string.drop st.cursor.toNat) re = some (m, st1)) :
    st1.token_start_offset = (st.cursor.toNat : Int) ∧
      st1.token_start_line =
        1 + (countNl (st.string.take st.cursor.toNat) : Int) ∧
      st1.token_start_column = (st.cursor.toNat : Int) -
        (lineBeginOffset st.string st.cursor.toNat : Int) ∧
      st1.token_end_offset = ((st.cursor.toNat + m.length : Nat) : Int) ∧
      st1.token_end_line =
        1 + (countNl (st.string.take (st.cursor.toNat + m.length)) : Int) ∧
      st1.token_end_column = ((st.cursor.toNat + m.length : Nat) : Int) -
        (lineBeginOffset st.string (st.cursor.toNat + m.length) : Int) ∧
      st1.cursor = ((st.cursor.toNat + m.length : Nat) : Int) ∧
      st1.string = st.string ∧ st1.LineInv := by
  obtain ⟨h0, hline, hbegin⟩ := hinv
  obtain ⟨-, hst1⟩ := _match_some st _ re m st1 hm
  obtain ⟨hcur, hstr, -, htso, htsl, htsc, hteo, htel, htec, -⟩ :=
    capture_location_proj st m
  obtain ⟨hcl, hclbo⟩ := capture_location_line st m h0 hpre hbegin
  have hple : st.cursor.toNat ≤ st.string.length := by omega
  have hcnt := countNl_take_add st.string m st.cursor.toNat hple hpre
  have hton : (st.cursor + (m.length : Int)).toNat =
      st.cursor.toNat + m.length := by omega
  refine ⟨?_, ?_, ?_, ?_, ?_, ?_, ?_, ?_, ?_⟩ <;> rw [hst1]
  · simp only [htso]
    omega
  · simp only [htsl]
    exact hline
  · simp only [htsc]
    rw [hbegin]
    omega
  · simp only [hteo]
    push_cast
    omega
  · simp only [htel, hcl]
    rw [hline, hcnt]
    push_cast
    ring
  · simp only [htec, hclbo]
    push_cast
    omega
  · simp only [hcur]
    push_cast
    omega
  · simp only [hstr]
  · refine ⟨?_, ?_, ?_⟩
    · simp only [hcur]
      omega
    · simp only [hcur, hstr, hcl, hton]
      rw [hline, hcnt]
      push_cast
      ring
    · simp only [hcur, hstr, hclbo, hton]

theorem c5_witness :
    stNl1.token_start_line =
        1 + (countNl (stNl.string.take stNl.cursor.toNat) : Int) ∧
      stNl1.token_end_line =
        1 + (countNl (stNl.string.take (stNl.cursor.toNat + sNl.length)) : Int) ∧
      stNl1.LineInv :=
  have h := c5_position_roundtrip stNl stNl1 reNl sNl (by decide) (by decide)
    (by decide) (by decide)
  ⟨h.2.1, h.2.2.2.2.1, h.2.2.2.2.2.2.2.2⟩

theorem _match_none (t : Tokenizer) (slice : Chars) (re : Chars → Option Chars) :
    t._match slice re = none ↔ re slice = none := by
  rw [Tokenizer._match]
  rcases h : re slice with - | m <;> simp [h]

/-- `applyMatch` finishes in a token or a panic, never in the
unexpected-token error (and never in the fuel sentinel). -/
theorem applyMatch_done (cfg : LexConfig) (st1 : Tokenizer) (i : Nat) (m : Chars)
    (o : LexOutcome) (h : applyMatch cfg st1 i m = .done o) :
    o = .panicked ∨ ∃ t st', o = .tok t st' := by
  rw [applyMatch] at h
  rcases hh : cfg.handlers[i]? with - | handler
  · simp only [hh] at h
    cases h
    exact Or.inl rfl
  · simp only [hh] at h
    rcases Nat.eq_zero_or_pos m.length with hz | hz
    · rw [if_pos hz] at h
      split at h
      · cases h
      · split at h <;> cases h
        · exact Or.inr ⟨_, _, rfl⟩
        · exact Or.inl rfl
    · have hz1 : ¬ m.length = 0 := by omega
      rw [if_neg hz1] at h
      split at h
      · cases h
      · split at h <;> cases h
        · exact Or.inr ⟨_, _, rfl⟩
        · exact Or.inl rfl

/-- If the rule loop ends in the unexpected-token error, every rule of
the active list exists and failed, and the error is the after-loop
error. -/
theorem tryRules_err (cfg : LexConfig) (st : Tokenizer) (slice : Chars) :
    ∀ (rules : List Nat) (e : UnexpectedTokenError),
      tryRules cfg st slice rules = .done (.err e) →
      (∀ i ∈ rules, ∀ re, cfg.lex_rules[i]? = some re → re slice = none) ∧
        noMatchEnd cfg st slice = .done (.err e) := by
  intro rules
  induction rules with
  | nil =>
    intro e h
    exact ⟨by simp, h⟩
  | cons i rest ih =>
    intro e h
    rw [tryRules] at h
    rcases hr : cfg.lex_rules[i]? with - | re
    · simp only [hr] at h
      cases h
    · simp only [hr] at h
      rcases hm : st._match slice re with - | ⟨m, st1⟩
      · simp only [hm] at h
        obtain ⟨ih1, ih2⟩ := ih e h
        refine ⟨?_, ih2⟩
        intro j hj rej hrej
        rcases List.mem_cons.mp hj with rfl | hj
        · rw [hrej] at hr
          cases hr
          exact (_match_none st slice _).mp hm
        · exact ih1 j hj rej hrej
      · simp only [hm] at h
        rcases applyMatch_done cfg st1 i m (.err e) h with h1 | ⟨t, st', h1⟩ <;>
          cases h1

/-- If every rule of the active list exists and fails, the rule loop
falls through to the after-loop code. -/
theorem tryRules_all_fail (cfg : LexConfig) (st : Tokenizer) (slice : Chars) :
    ∀ rules : List Nat,
      (∀ i ∈ rules, ∃ re, cfg.lex_rules[i]? = some re ∧ re slice = none) →
      tryRules cfg st slice rules = noMatchEnd cfg st slice := by
  intro rules
  induction rules with
  | nil =>
    intro _
    rfl
  | cons i rest ih =>
    intro hfail
    obtain ⟨re, hre, hnone⟩ := hfail i (List.mem_cons_self i rest)
    rw [tryRules]
    simp only [hre, (_match_none st slice re).mpr hnone]
    exact ih fun j hj => hfail j (List.mem_cons_of_mem i hj)

theorem splitNl_ne_nil (s : Chars) : splitNl s ≠ [] := by
  induction s with
  | nil => simp [splitNl]
  | cons c cs ih =>
    rw [splitNl]
    split
    · simp
    · rcases h : splitNl cs with - | ⟨p, ps⟩
      · simp [h]
      · simp [h]

theorem splitNl_length (s : Chars) : (splitNl s).length = countNl s + 1 := by
  induction s with
  | nil => simp [splitNl, countNl]
  | cons c cs ih =>
    rw [splitNl, countNl_cons]
    split <;> rename_i hc
    · simp only [List.length_cons, ih, if_pos hc]
    · rcases h : splitNl cs with - | ⟨p, ps⟩
      · exact absurd h (splitNl_ne_nil cs)
      · rw [h] at ih
        simp only [h, List.length_cons, if_neg hc]
        simp only [List.length_cons] at ih
        omega

theorem countNl_take_le (s : Chars) (p : Nat) :
    countNl (s.take p) ≤ countNl s := by
  exact (List.take_sublist p s).count_le _

/-- **C2**: under the line/column bookkeeping invariant, with every
rule index of the active state resolvable and an all-ASCII source, a
scanning pass of `get_next_token` fails with the `UnexpectedToken`
condition exactly when no rule of the current top-of-stack state
matches at the cursor and the cursor is strictly before end-of-source.
The failure carries the single offending character (head of the
remaining input), the 1-based current line, the 0-based current column,
and the diagnostic line data holding the full text of that source line
with a caret sitting under `column` spaces of padding. -/
theorem c2_unexpected_token_iff (cfg : LexConfig) (st : Tokenizer)
    (rules : List Nat)
    (hinv : st.LineInv)
    (hcol : st.current_column = st.cursor - st.current_line_begin_offset)
    (hascii : ∀ c ∈ st.string, c.utf8Size = 1)
    (hstate : cfg.lex_rules_by_start_conditions st.get_current_state = some rules)
    (hvalid : ∀ i ∈ rules, ∃ re, cfg.lex_rules[i]? = some re) :
    ((∃ e, lexStep cfg st = .done (.err e)) ↔
      (NoRuleMatches cfg (st.string.drop st.cursor.toNat) rules ∧
        st.cursor < (st.string.length : Int))) ∧
    (∀ e, lexStep cfg st = .done (.err e) →
      e.string = (st.string.drop st.cursor.toNat).take 1 ∧
      e.line = st.current_line ∧
      e.line = 1 + (countNl (st.string.take st.cursor.toNat) : Int) ∧
      e.column = st.current_column ∧
      e.column = (st.cursor.toNat : Int) -
        (lineBeginOffset st.string st.cursor.toNat : Int) ∧
      0 ≤ e.column ∧
      e.line_data = [ '\n', '\n'] ++
        ((splitNl st.string)[countNl (st.string.take st.cursor.toNat)]?.getD []) ++
        [ '\n'] ++ List.replicate e.column.toNat ' ' ++ [ '^', '\n']) := by
  obtain ⟨h0, hline, hbegin⟩ := hinv
  cases hmore : st.has_more_tokens with
  | false =>
    have hgt : (st.string.length : Int) < st.cursor := by
      simp only [Tokenizer.has_more_tokens, decide_eq_false_iff_not] at hmore
      omega
    have hne : ∀ e, lexStep cfg st ≠ .done (.err e) := by
      intro e
      rw [lexStep, if_pos (by simp [hmore])]
      try dsimp only
      split <;> simp
    constructor
    · constructor
      · rintro ⟨e, he⟩
        exact absurd he (hne e)
      · rintro ⟨-, hlt⟩
        omega
    · intro e he
      exact absurd he (hne e)
  | true =>
    have hb : st.cursor ≤ (st.string.length : Int) := by
      simpa [Tokenizer.has_more_tokens] using hmore
    have hd : dropSlice st = some (st.string.drop st.cursor.toNat) := by
      simp [dropSlice, h0, hb]
    have hstep : lexStep cfg st =
        tryRules cfg st (st.string.drop st.cursor.toNat) rules := by
      rw [lexStep, if_neg (by simp [hmore])]
      simp only [hd, hstate]
    rcases eq_or_lt_of_le hb with heq | hlt
    · -- cursor exactly at end of source: the after-loop code takes the
      -- single-step EOF advance, never the error.
      have heof : st.is_eof = true := by simp [Tokenizer.is_eof, heq]
      have hne : ∀ e, lexStep cfg st ≠ .done (.err e) := by
        intro e he
        rw [hstep] at he
        obtain ⟨-, hend⟩ := tryRules_err cfg st _ rules e he
        rw [noMatchEnd, if_pos (by simp [heof])] at hend
        revert hend
        try dsimp only
        split <;> simp
      constructor
      · constructor
        · rintro ⟨e, he⟩
          exact absurd he (hne e)
        · rintro ⟨-, hlt⟩
          omega
      · intro e he
        exact absurd he (hne e)
    · -- cursor strictly before end of source.
      have heof : st.is_eof = false := by
        simp only [Tokenizer.is_eof, decide_eq_false_iff_not]
        omega
      have hplen : st.cursor.toNat < st.string.length := by omega
      have hdropc : st.string.drop st.cursor.toNat =
          st.string[st.cursor.toNat] :: st.string.drop (st.cursor.toNat + 1) :=
        List.drop_eq_getElem_cons hplen
      have hcu : st.string[st.cursor.toNat].utf8Size = 1 :=
        hascii _ (List.getElem_mem hplen)
      have hslice1 : sliceOneByte (st.string.drop st.cursor.toNat) =
          some [st.string[st.cursor.toNat]] := by
        rw [hdropc]
        simp [sliceOneByte, hcu]
      have hcolv : st.current_column = (st.cursor.toNat : Int) -
          (lineBeginOffset st.string st.cursor.toNat : Int) := by
        rw [hcol, hbegin]
        omega
      have hcol0 : 0 ≤ st.current_column := by
        have hle := lineBeginOffset_le st.string st.cursor.toNat
        omega
      have hlin1 : 1 ≤ st.current_line := by
        have : (0 : Int) ≤ (countNl (st.string.take st.cursor.toNat) : Int) := by
          positivity
        omega
      have hidx : (st.current_line - 1).toNat =
          countNl (st.string.take st.cursor.toNat) := by
        omega
      have hidxlt : countNl (st.string.take st.cursor.toNat) <
          (splitNl st.string).length := by
        have h1 := countNl_take_le st.string st.cursor.toNat
        have h2 := splitNl_length st.string
        omega
      have hpanic : st.panic_unexpected_token [st.string[st.cursor.toNat]]
          st.current_line st.current_column =
          some
            { line_data := [ '\n', '\n'] ++
                (splitNl st.string)[countNl (st.string.take st.cursor.toNat)] ++
                [ '\n'] ++ List.replicate st.current_column.toNat ' ' ++
                [ '^', '\n']
              string := [st.string[st.cursor.toNat]]
              line := st.current_line
              column := st.current_column } := by
        rw [Tokenizer.panic_unexpected_token, if_neg (by omega), hidx,
          List.getElem?_eq_getElem hidxlt]
      have hnme : noMatchEnd cfg st (st.string.drop st.cursor.toNat) =
          .done (.err
            { line_data := [ '\n', '\n'] ++
                (splitNl st.string)[countNl (st.string.take st.cursor.toNat)] ++
                [ '\n'] ++ List.replicate st.current_column.toNat ' ' ++
                [ '^', '\n']
              string := [st.string[st.cursor.toNat]]
              line := st.current_line
              column := st.current_column }) := by
        rw [noMatchEnd, if_neg (by simp [heof])]
        simp only [hslice1, hpanic]
      constructor
      · constructor
        · rintro ⟨e, he⟩
          rw [hstep] at he
          obtain ⟨hfail, -⟩ := tryRules_err cfg st _ rules e he
          refine ⟨?_, hlt⟩
          intro i hi
          obtain ⟨re, hre⟩ := hvalid i hi
          rw [hre]
          simpa using hfail i hi re hre
        · rintro ⟨hnrm, -⟩
          have hall : ∀ i ∈ rules, ∃ re, cfg.lex_rules[i]? = some re ∧
              re (st.string.drop st.cursor.toNat) = none := by
            intro i hi
            obtain ⟨re, hre⟩ := hvalid i hi
            refine ⟨re, hre, ?_⟩
            have hbind := hnrm i hi
            rw [hre] at hbind
            simpa using hbind
          exact ⟨_, by rw [hstep, tryRules_all_fail cfg st _ rules hall, hnme]⟩
      · intro e he
        rw [hstep] at he
        obtain ⟨hfail, hend⟩ := tryRules_err cfg st _ rules e he
        rw [hnme] at hend
        have he2 := (LexOutcome.err.injEq _ _).mp (StepResult.done.injEq _ _ |>.mp hend)
        subst he2
        refine ⟨?_, rfl, hline, rfl, hcolv, hcol0, ?_⟩
        · rw [hdropc]
          rfl
        · rw [List.getElem?_eq_getElem hidxlt]
          rfl

theorem c2_witness :
    (NoRuleMatches cfgCalc (stAtBad.string.drop stAtBad.cursor.toNat) [0, 1, 2, 3] ∧
      stAtBad.cursor < (stAtBad.string.length : Int)) ∧
    (eAt.string = (stAtBad.string.drop stAtBad.cursor.toNat).take 1 ∧
      eAt.line = stAtBad.current_line ∧
      eAt.line = 1 + (countNl (stAtBad.string.take stAtBad.cursor.toNat) : Int) ∧
      eAt.column = stAtBad.current_column ∧
      eAt.column = (stAtBad.cursor.toNat : Int) -
        (lineBeginOffset stAtBad.string stAtBad.cursor.toNat : Int) ∧
      0 ≤ eAt.column ∧
      eAt.line_data = [ '\n', '\n'] ++
        ((splitNl stAtBad.string)[countNl
          (stAtBad.string.take stAtBad.cursor.toNat)]?.getD []) ++
        [ '\n'] ++ List.replicate eAt.column.toNat ' ' ++ [ '^', '\n']) :=
  have h := c2_unexpected_token_iff cfgCalc stAtBad [0, 1, 2, 3]
    (by decide) (by decide) (by decide) (by decide)
    (by
      intro i hi
      fin_cases hi
      · exact ⟨wsPat, rfl⟩
      · exact ⟨numPat, rfl⟩
      · exact ⟨litPat [ '+'], rfl⟩
      · exact ⟨litPat [ '*'], rfl⟩)
  ⟨h.1.mp ⟨eAt, by decide⟩, h.2 eAt (by decide)⟩

/-- UTF-8: a character encodes in one byte exactly when its code point
is at most `0x7F`. -/
theorem utf8Size_eq_one_iff (c : Char) : c.utf8Size = 1 ↔ c.val ≤ 127 := by
  have he : UInt32.ofNatCore 0x7F (by decide) = (127 : UInt32) := by decide
  rw [Char.utf8Size]
  rw [he]
  by_cases h : c.val ≤ (127 : UInt32)
  · rw [if_pos h]
    simp [h]
  · rw [if_neg h]
    split <;> (try split) <;> simp [h]

/-- **C10**: the no-match error path extracts the offending character
as the one-byte slice of the remaining input.  The slice is
well-defined — and the `UnexpectedToken` diagnostic actually shows the
offending character — exactly when the first unmatched character
occupies a single byte (its code point is ASCII, at most `0x7F`); for a
multi-byte character at the cursor the one-byte slice is not at a
character boundary, and the scanning pass panics instead of producing
the diagnostic. -/
theorem c10_one_byte_slice (cfg : LexConfig) (st : Tokenizer) (c : Char)
    (r : Chars) (heof : st.is_eof = false) :
    (sliceOneByte (c :: r) = some [c] ↔ c.utf8Size = 1) ∧
      (c.utf8Size = 1 ↔ c.val ≤ 127) ∧
      (c.utf8Size ≠ 1 → tryRules cfg st (c :: r) [] = .done .panicked) := by
  refine ⟨?_, utf8Size_eq_one_iff c, ?_⟩
  · constructor
    · intro h
      by_contra hn
      rw [sliceOneByte, if_neg hn] at h
      cases h
    · intro h
      rw [sliceOneByte, if_pos h]
  · intro h
    rw [tryRules, noMatchEnd, if_neg (by simp [heof]), sliceOneByte, if_neg h]

theorem c10_witness :
    (sliceOneByte [ 'λ'] = some [ 'λ'] ↔ Char.utf8Size 'λ' = 1) ∧
      (Char.utf8Size 'λ' = 1 ↔ Char.val 'λ' ≤ 127) ∧
      tryRules cfgCalc stAtBad [ 'λ'] [] = .done .panicked :=
  have h := c10_one_byte_slice cfgCalc stAtBad 'λ' [] (by decide)
  ⟨h.1, h.2.1, h.2.2 (by decide)⟩

end SyntaxTokenizer
